import Mathlib

/-!
Shallow embedding of the `LukeEcomod/scipy_ode_solver` notebooks.

The repository consists of two Jupyter notebooks:

* a 1-D heat-equation demo (`odefun` over a `params` dictionary, solved
  with `solve_ivp`), and
* a 2-D damped wave equation with an external force
  (`external_force`, `odefun`, grid setup `Nx = int(lx/dx) + 1`,
  `x = np.linspace(0, lx, Nx)`).

NumPy arrays of rationals are modelled as `List ℚ` (1-D) and
`Fin n → Fin m → ℚ` (2-D, row-major), with real arithmetic replaced by
exact rational arithmetic.  Fallible NumPy operations (reshape with a
wrong element count, broadcasting of incompatible shapes, `linspace`
with a negative sample count, Python division by zero) are modelled
with `Option` / `Except`.
-/

/-! ## Definitions -/

/-- `l.getD i 0`: array indexing with default 0, used to state facts about
list entries without carrying bound proofs. -/
def nth (l : List ℚ) (i : ℕ) : ℚ := l.getD i 0

/-- `np.diff(v)` for a 1-D array: `diff[i] = v[i+1] - v[i]`, length one less. -/
def npDiff (v : List ℚ) : List ℚ := List.zipWith (fun a b => b - a) v v.tail

/-- NumPy elementwise subtraction of two 1-D arrays with broadcasting:
defined when the lengths agree or one of the operands has length 1,
a `ValueError` (`none`) otherwise. -/
def npSub (u v : List ℚ) : Option (List ℚ) :=
  if u.length = v.length then some (List.zipWith (fun a b => a - b) u v)
  else if v.length = 1 then some (u.map (fun z => z - v.headI))
  else if u.length = 1 then some (v.map (fun z => u.headI - z))
  else none

/-- `np.linspace(a, b, n)`: `n` evenly spaced samples from `a` to `b`,
both endpoints included (`n = 1` gives `[a]`). -/
def npLinspace (a b : ℚ) (n : ℕ) : List ℚ :=
  (List.range n).map fun (i : ℕ) =>
    if n = 1 then a else a + (i : ℚ) * ((b - a) / ((n : ℚ) - 1))

/-- Python `int(q)` on a rational: truncation toward zero. -/
def pyInt (q : ℚ) : ℤ := if 0 ≤ q then ⌊q⌋ else ⌈q⌉

/-- Row-major flatten of an `Nx × Ny` array: `reshape(Nx*Ny,)`.
Entry `k` is `g (k / Ny) (k % Ny)`; the guard can only fail for
indices outside the range, which `List.range` never produces. -/
def npFlatten (Nx Ny : ℕ) (g : Fin Nx → Fin Ny → ℚ) : List ℚ :=
  (List.range (Nx * Ny)).map fun k =>
    if h : k / Ny < Nx ∧ k % Ny < Ny then g ⟨k / Ny, h.1⟩ ⟨k % Ny, h.2⟩ else 0

/-- `v.reshape(Nx, Ny)` of a 1-D array: row-major, defined exactly when the
array has `Nx*Ny` entries, a `ValueError` (`none`) otherwise. -/
def npReshape2 (Nx Ny : ℕ) (v : List ℚ) : Option (Fin Nx → Fin Ny → ℚ) :=
  if v.length = Nx * Ny then some (fun i j => nth v (i.val * Ny + j.val)) else none

namespace Wave

/-! ### 2-D damped wave equation notebook
(`A2_2D_wave_damped_wave_equation_external_force.ipynb`) -/

/-- Grid resolution, `dx = 0.25`. -/
def dx : ℚ := 1/4
/-- Grid resolution, `dy = 0.25`. -/
def dy : ℚ := 1/4
/-- Max length, `lx = 10`. -/
def lx : ℚ := 10
/-- Max length, `ly = 10`. -/
def ly : ℚ := 10
/-- Number of gridpoints, `Nx = int(lx/dx) + 1`. -/
def Nx : ℕ := (pyInt (lx / dx) + 1).toNat
/-- Number of gridpoints, `Ny = int(ly/dy) + 1`. -/
def Ny : ℕ := (pyInt (ly / dy) + 1).toNat
/-- Grid point vector, `x = np.linspace(0, lx, Nx)`. -/
def x : Fin Nx → ℚ := fun i => nth (npLinspace 0 lx Nx) i.val
/-- Grid point vector, `y = np.linspace(0, ly, Ny)`. -/
def y : Fin Ny → ℚ := fun j => nth (npLinspace 0 ly Ny) j.val

/-- One assignment `u[ix, iy] = b` to a 2-D array. -/
def updateAt {Nx Ny : ℕ} (u : Fin Nx → Fin Ny → ℚ) (ix : Fin Nx) (iy : Fin Ny) (b : ℚ) :
    Fin Nx → Fin Ny → ℚ :=
  fun i j => if i = ix ∧ j = iy then b else u i j

/-- `external_force(x, y, t, B, Nx, Ny)`: start from `np.zeros((Nx, Ny))`;
if `t < 4.0 and t > 1`, gather the index sets
`ind_x = np.where((x >= 2.5) & (x <= 3.5))[0]`,
`ind_y = np.where((y >= 1.5) & (y <= 4.5))[0]`
and assign `u[ix, iy] = B` over the nested loops. -/
def external_force (Nx Ny : ℕ) (x : Fin Nx → ℚ) (y : Fin Ny → ℚ) (t B : ℚ) :
    Fin Nx → Fin Ny → ℚ :=
  let u : Fin Nx → Fin Ny → ℚ := fun _ _ => 0
  if t < 4 ∧ 1 < t then
    let ind_x := (List.finRange Nx).filter fun i => decide ((5/2 : ℚ) ≤ x i ∧ x i ≤ 7/2)
    let ind_y := (List.finRange Ny).filter fun j => decide ((3/2 : ℚ) ≤ y j ∧ y j ≤ 9/2)
    ind_x.foldl (fun u ix => ind_y.foldl (fun u iy => updateAt u ix iy B) u) u
  else u

/-- The unpacking step at the head of `odefun`:
`y1 = u[:Nx*Ny].reshape(Nx, Ny); y2 = u[Nx*Ny:].reshape(Nx, Ny)`. -/
def unpack2 (Nx Ny : ℕ) (u : List ℚ) :
    Option ((Fin Nx → Fin Ny → ℚ) × (Fin Nx → Fin Ny → ℚ)) :=
  (npReshape2 Nx Ny (u.take (Nx * Ny))).bind fun y1 =>
  (npReshape2 Nx Ny (u.drop (Nx * Ny))).map fun y2 => (y1, y2)

/-- The packing step at the tail of `odefun`:
`np.concatenate((dy1dt.reshape(Nx*Ny,), dy2dt.reshape(Nx*Ny,)))`. -/
def pack2 (Nx Ny : ℕ) (v1 v2 : Fin Nx → Fin Ny → ℚ) : List ℚ :=
  npFlatten Nx Ny v1 ++ npFlatten Nx Ny v2

/-- The interior five-point term of `odefun`:
`dy2dt[1:-1, 1:-1] = c**2*((y1[2:,1:-1] - 2*y1[1:-1,1:-1] + y1[:-2,1:-1])/dx**2
+ (y1[1:-1,2:] - 2*y1[1:-1,1:-1] + y1[1:-1,:-2])/dy**2)` applied to the
zero-initialized buffer `dy2dt = np.zeros((Nx, Ny))`: boundary entries keep 0. -/
def lapTerm (Nx Ny : ℕ) (c dx dy : ℚ) (y1 : Fin Nx → Fin Ny → ℚ) :
    Fin Nx → Fin Ny → ℚ := fun i j =>
  if h : 0 < i.val ∧ i.val + 1 < Nx ∧ 0 < j.val ∧ j.val + 1 < Ny then
    c^2 * ((y1 ⟨i.val + 1, h.2.1⟩ j - 2 * y1 i j
             + y1 ⟨i.val - 1, Nat.lt_of_le_of_lt (Nat.sub_le _ _) i.isLt⟩ j) / dx^2
         + (y1 i ⟨j.val + 1, h.2.2.2⟩ - 2 * y1 i j
             + y1 i ⟨j.val - 1, Nat.lt_of_le_of_lt (Nat.sub_le _ _) j.isLt⟩) / dy^2)
  else 0

/-- `odefun(u, t, B, a, c, x, y, dx, dy, Nx, Ny)` of the wave notebook:
unpack `u` into `y1, y2`; `dy1dt = y2`; evaluate the external force;
fill the interior of `dy2dt` with the `c²(u_xx + u_yy)` term; then
`dy2dt = dy2dt - a*y2 + f_ext` over the whole array; repack. -/
def odefun (Nx Ny : ℕ) (u : List ℚ) (t B a c : ℚ)
    (x : Fin Nx → ℚ) (y : Fin Ny → ℚ) (dx dy : ℚ) : Option (List ℚ) :=
  (unpack2 Nx Ny u).map fun p =>
    let y1 := p.1
    let y2 := p.2
    let dy1dt := y2
    let f_ext := external_force Nx Ny x y t B
    let dy2dt := fun i j => lapTerm Nx Ny c dx dy y1 i j - a * y2 i j + f_ext i j
    pack2 Nx Ny dy1dt dy2dt

/-- Damping constant of the notebook, `a = 0.1`. -/
def a : ℚ := 1/10
/-- Forcing amplitude of the notebook, `B = 1`. -/
def B : ℚ := 1
/-- Wave speed of the notebook, `c = 0.5`. -/
def c : ℚ := 1/2

/-- Initial state, `u_start = np.zeros((2*Nx*Ny,))`. -/
def u_start : List ℚ := List.replicate (2 * (Nx * Ny)) 0

/-- Cell `(i, j)` lies in the first/last row or column of the grid. -/
def isBoundary {Nx Ny : ℕ} (i : Fin Nx) (j : Fin Ny) : Prop :=
  i.val = 0 ∨ i.val = Nx - 1 ∨ j.val = 0 ∨ j.val = Ny - 1

/-- A packed state whose displacement half and velocity half are both 0 at
every boundary cell of the `Nx × Ny` grid. -/
def zeroBoundary (Nx Ny : ℕ) (u : List ℚ) : Prop :=
  ∀ (i : Fin Nx) (j : Fin Ny), isBoundary i j →
    nth u (i.val * Ny + j.val) = 0 ∧ nth u (Nx * Ny + (i.val * Ny + j.val)) = 0

/-- A packed state whose velocity component is 1 at the boundary corner
`(0, 0)` and 0 everywhere else. -/
def uCorner : List ℚ := List.replicate (Nx * Ny) 0 ++ (1 :: List.replicate (Nx * Ny - 1) 0)

end Wave

namespace Heat

/-! ### 1-D heat equation notebook -/

/-- The `params` dictionary of constant terms: volumetric heat capacity `c`,
conductive heat flux array `q`, space discretization `x`, source constant `a`
and element count `Nx`. -/
structure Params where
  c : ℚ
  q : List ℚ
  x : List ℚ
  a : ℚ
  Nx : ℕ

/-- The array shapes the notebook's `params` cell creates:
`q = np.random.random((Nx,))*0.1` (length `Nx`),
`x = np.linspace(0, 1, Nx+1)` (length `Nx+1`), with `Nx = 10 > 0`. -/
def WF (p : Params) : Prop :=
  p.q.length = p.Nx ∧ p.x.length = p.Nx + 1 ∧ 0 < p.Nx

/-- `odefun(t, y, params)` of the heat notebook:
`s = y*a`; `dq_left = np.zeros(Nx)` with `dq_left[1:] = -1.0*np.diff(q)`
(written `0 :: …`, exact for the `WF` shapes where `np.diff(q)` has length
`Nx - 1`); `dq_right = np.zeros(Nx)` with `dq_right[:-1] = np.diff(q)`;
`dq = dq_left + dq_right`; `dTdt = -c**(-1) * (dq/np.diff(x) - s)`.
The subtraction `dq/np.diff(x) - s` is the only step whose shape depends
on `y` and is modelled by broadcasting (`npSub`). -/
def odefun (t : ℚ) (y : List ℚ) (p : Params) : Option (List ℚ) :=
  let s := y.map (fun z => z * p.a)
  let dq_left : List ℚ := 0 :: (npDiff p.q).map (fun z => -1 * z)
  let dq_right : List ℚ := npDiff p.q ++ [0]
  let dq := List.zipWith (fun u v => u + v) dq_left dq_right
  let flux := List.zipWith (fun u v => u / v) dq (npDiff p.x)
  (npSub flux s).map (List.map (fun z => -(p.c)⁻¹ * z))

/-- The notebook's `params` with `Nx = 10`, `c = 5`, `a = 0.01`,
`x = np.linspace(0, 1, Nx+1)`; the random flux values
`q = np.random.random((Nx,))*0.1` are replaced by the fixed representative
`0.05`, which only fixes a concrete instance - every claim-relevant
property of `odefun` below is proved for arbitrary `q` of length `Nx`. -/
def params : Params :=
  { c := 5, q := List.replicate 10 (1/20), x := npLinspace 0 1 11, a := 1/100, Nx := 10 }

/-- Initial temperature profile: `T_init = np.ones((10,)); T_init[5] = 4`. -/
def T_init : List ℚ := [1, 1, 1, 1, 1, 4, 1, 1, 1, 1]

end Heat

/-! ### The `solve_ivp` driver cells and the grid construction -/

/-- The object returned by the external integrator `scipy.integrate.solve_ivp`:
a status code, a message, a success flag and the (possibly partial)
trajectory `y`. -/
structure IvpResult where
  status : ℤ
  message : String
  success : Bool
  y : List (List ℚ)

/-- Modelled from the spec: the error the spec says the driver raises when the
integrator reports non-success.  No such class exists in the source; the type
is introduced here only so that the claim about it can be stated. -/
inductive IntegrationError where
  | failure (status : ℤ) (message : String)

/-- The driver cells `solution = solve_ivp(...)` /
`sol = solve_ivp(...)` of both notebooks: the integrator's result is bound
to a name and used directly (`solution.keys()`, `sol.y`), with no inspection
of `status` or `success`, no wrapping and no retry. -/
def driver (r : IvpResult) : Except IntegrationError IvpResult := Except.ok r

/-- The ways the grid-construction cell can actually fail in Python/NumPy:
`lx/dx` with `dx = 0` raises `ZeroDivisionError`; `np.linspace` with a
negative sample count raises `ValueError`. -/
inductive GridError where
  | zeroDivisionError
  | valueError
deriving DecidableEq

/-- The grid construction of the notebooks as a function of the domain length
and the step: `N = int(length/step) + 1; np.linspace(0, length, N)`
(wave notebook: `Nx = int(lx/dx) + 1`, `x = np.linspace(0, lx, Nx)`),
with the Python/NumPy failure modes made explicit. -/
def buildGrid (len step : ℚ) : Except GridError (List ℚ) :=
  if step = 0 then Except.error GridError.zeroDivisionError
  else
    let N : ℤ := pyInt (len / step) + 1
    if N < 0 then Except.error GridError.valueError
    else Except.ok (npLinspace 0 len N.toNat)

/-! ## Theorems -/

section BaseLemmas

theorem nth_eq_getElem {l : List ℚ} {i : ℕ} (h : i < l.length) : nth l i = l[i] := by
  simp [nth, List.getD_eq_getElem?_getD, List.getElem?_eq_getElem h]

theorem length_npFlatten (Nx Ny : ℕ) (g : Fin Nx → Fin Ny → ℚ) :
    (npFlatten Nx Ny g).length = Nx * Ny := by
  simp [npFlatten]

theorem index_lt (Nx Ny : ℕ) (i : Fin Nx) (j : Fin Ny) : i.val * Ny + j.val < Nx * Ny := by
  calc i.val * Ny + j.val < i.val * Ny + Ny := by omega
  _ = (i.val + 1) * Ny := by ring
  _ ≤ Nx * Ny := Nat.mul_le_mul_right _ (by omega)

theorem nth_npFlatten (Nx Ny : ℕ) (g : Fin Nx → Fin Ny → ℚ) (i : Fin Nx) (j : Fin Ny) :
    nth (npFlatten Nx Ny g) (i.val * Ny + j.val) = g i j := by
  have hj : (0:ℕ) < Ny := j.pos
  have hk : i.val * Ny + j.val < Nx * Ny := index_lt Nx Ny i j
  have hlen : i.val * Ny + j.val < (npFlatten Nx Ny g).length := by
    rw [length_npFlatten]; exact hk
  rw [nth_eq_getElem hlen]
  simp only [npFlatten, List.getElem_map, List.getElem_range]
  have hdiv : (i.val * Ny + j.val) / Ny = i.val := by
    rw [Nat.add_comm, Nat.add_mul_div_right _ _ hj, Nat.div_eq_of_lt j.isLt, Nat.zero_add]
  have hmod : (i.val * Ny + j.val) % Ny = j.val := by
    rw [Nat.add_comm, Nat.add_mul_mod_self_right, Nat.mod_eq_of_lt j.isLt]
  have hcond : (i.val * Ny + j.val) / Ny < Nx ∧ (i.val * Ny + j.val) % Ny < Ny := by
    constructor
    · rw [hdiv]; exact i.isLt
    · rw [hmod]; exact j.isLt
  rw [dif_pos hcond]
  congr 1 <;> [skip; skip] <;> apply Fin.ext <;> simp [hdiv, hmod]

theorem npReshape2_npFlatten (Nx Ny : ℕ) (g : Fin Nx → Fin Ny → ℚ) :
    npReshape2 Nx Ny (npFlatten Nx Ny g) = some g := by
  rw [npReshape2, if_pos (length_npFlatten Nx Ny g)]
  congr 1
  funext i j
  exact nth_npFlatten Nx Ny g i j

theorem nth_take {u : List ℚ} {n k : ℕ} (hk : k < n) : nth (u.take n) k = nth u k := by
  by_cases h : k < u.length
  · have h1 : k < (u.take n).length := by
      rw [List.length_take]; omega
    rw [nth_eq_getElem h1, nth_eq_getElem h, List.getElem_take]
  · have h1 : (u.take n).length ≤ k := by
      rw [List.length_take]; omega
    rw [nth, nth, List.getD_eq_default _ _ h1, List.getD_eq_default _ _ (by omega)]

theorem nth_drop {u : List ℚ} {n k : ℕ} : nth (u.drop n) k = nth u (n + k) := by
  by_cases h : n + k < u.length
  · have h1 : k < (u.drop n).length := by
      rw [List.length_drop]; omega
    rw [nth_eq_getElem h1, nth_eq_getElem h, List.getElem_drop]
  · have h1 : (u.drop n).length ≤ k := by
      rw [List.length_drop]; omega
    rw [nth, nth, List.getD_eq_default _ _ h1, List.getD_eq_default _ _ (by omega)]

theorem nth_npLinspace (a b : ℚ) (n : ℕ) (i : ℕ) (hi : i < n) (hn : n ≠ 1) :
    nth (npLinspace a b n) i = a + i * ((b - a) / ((n : ℚ) - 1)) := by
  have hlen : i < (npLinspace a b n).length := by
    simp only [npLinspace, List.length_map, List.length_range]
    exact hi
  rw [nth_eq_getElem hlen]
  simp only [npLinspace, List.getElem_map, List.getElem_range, if_neg hn]

end BaseLemmas

namespace Wave

theorem foldl_updateAt_inner {Nx Ny : ℕ} (B : ℚ) (ix : Fin Nx) (ly : List (Fin Ny))
    (u : Fin Nx → Fin Ny → ℚ) (i : Fin Nx) (j : Fin Ny) :
    (ly.foldl (fun u iy => updateAt u ix iy B) u) i j =
      if i = ix ∧ j ∈ ly then B else u i j := by
  induction ly generalizing u with
  | nil => simp
  | cons hd tl ih =>
    simp only [List.foldl_cons, ih, updateAt]
    by_cases hi : i = ix
    · by_cases hj : j ∈ tl
      · simp [hi, hj]
      · by_cases hjh : j = hd
        · simp [hi, hjh]
        · simp [hi, hj, hjh]
    · simp [hi]

theorem foldl_updateAt_outer {Nx Ny : ℕ} (B : ℚ) (lx : List (Fin Nx)) (ly : List (Fin Ny))
    (u : Fin Nx → Fin Ny → ℚ) (i : Fin Nx) (j : Fin Ny) :
    (lx.foldl (fun u ix => ly.foldl (fun u iy => updateAt u ix iy B) u) u) i j =
      if i ∈ lx ∧ j ∈ ly then B else u i j := by
  induction lx generalizing u with
  | nil => simp
  | cons hd tl ih =>
    simp only [List.foldl_cons, ih, foldl_updateAt_inner]
    by_cases hi : i ∈ tl
    · by_cases hj : j ∈ ly <;> simp [hi, hj]
    · by_cases hih : i = hd
      · by_cases hj : j ∈ ly <;> simp [hi, hih, hj]
      · simp [hi, hih]

/-- Pointwise characterization of `external_force`: entry `(i, j)` is `B`
exactly inside the space–time window (inclusive space bounds, strict time
bounds) and `0` everywhere else. -/
theorem external_force_spec (Nx Ny : ℕ) (x : Fin Nx → ℚ) (y : Fin Ny → ℚ) (t B : ℚ)
    (i : Fin Nx) (j : Fin Ny) :
    external_force Nx Ny x y t B i j =
      if 1 < t ∧ t < 4 ∧ (5/2 : ℚ) ≤ x i ∧ x i ≤ 7/2 ∧ (3/2 : ℚ) ≤ y j ∧ y j ≤ 9/2
      then B else 0 := by
  rw [external_force]
  by_cases ht : t < 4 ∧ 1 < t
  · rw [if_pos ht, foldl_updateAt_outer]
    by_cases hx : (5/2 : ℚ) ≤ x i ∧ x i ≤ 7/2
    · by_cases hy : (3/2 : ℚ) ≤ y j ∧ y j ≤ 9/2
      · rw [if_pos, if_pos]
        · exact ⟨ht.2, ht.1, hx.1, hx.2, hy.1, hy.2⟩
        · constructor <;> · rw [List.mem_filter]
                            simp only [List.mem_finRange, true_and, decide_eq_true_eq]
                            first | exact hx | exact hy
      · rw [if_neg, if_neg]
        · intro h; exact hy ⟨h.2.2.2.2.1, h.2.2.2.2.2⟩
        · intro h
          have := h.2
          rw [List.mem_filter] at this
          simp only [decide_eq_true_eq] at this
          exact hy this.2
    · rw [if_neg, if_neg]
      · intro h; exact hx ⟨h.2.2.1, h.2.2.2.1⟩
      · intro h
        have := h.1
        rw [List.mem_filter] at this
        simp only [decide_eq_true_eq] at this
        exact hx this.2
  · rw [if_neg ht, if_neg]
    intro h
    exact ht ⟨h.2.1, h.1⟩

theorem nth_pack2_left (Nx Ny : ℕ) (v1 v2 : Fin Nx → Fin Ny → ℚ) (i : Fin Nx) (j : Fin Ny) :
    nth (pack2 Nx Ny v1 v2) (i.val * Ny + j.val) = v1 i j := by
  rw [pack2, nth, List.getD_append _ _ _ _ (by rw [length_npFlatten]; exact index_lt Nx Ny i j)]
  exact nth_npFlatten Nx Ny v1 i j

theorem nth_pack2_right (Nx Ny : ℕ) (v1 v2 : Fin Nx → Fin Ny → ℚ) (i : Fin Nx) (j : Fin Ny) :
    nth (pack2 Nx Ny v1 v2) (Nx * Ny + (i.val * Ny + j.val)) = v2 i j := by
  rw [pack2, nth, List.getD_append_right _ _ _ _ (by rw [length_npFlatten]; omega)]
  rw [length_npFlatten, Nat.add_sub_cancel_left]
  exact nth_npFlatten Nx Ny v2 i j

theorem length_pack2 (Nx Ny : ℕ) (v1 v2 : Fin Nx → Fin Ny → ℚ) :
    (pack2 Nx Ny v1 v2).length = 2 * (Nx * Ny) := by
  rw [pack2, List.length_append, length_npFlatten, length_npFlatten]
  omega

theorem unpack2_pack2 (Nx Ny : ℕ) (v1 v2 : Fin Nx → Fin Ny → ℚ) :
    unpack2 Nx Ny (pack2 Nx Ny v1 v2) = some (v1, v2) := by
  have h1 : (pack2 Nx Ny v1 v2).take (Nx * Ny) = npFlatten Nx Ny v1 := by
    rw [pack2, List.take_left' (length_npFlatten Nx Ny v1)]
  have h2 : (pack2 Nx Ny v1 v2).drop (Nx * Ny) = npFlatten Nx Ny v2 := by
    rw [pack2, List.drop_left' (length_npFlatten Nx Ny v1)]
  rw [unpack2, h1, h2, npReshape2_npFlatten, npReshape2_npFlatten]
  rfl

/-- Entrywise description of the wave `odefun` on a state of the packed
length `2*Nx*Ny`: it returns the concatenation of `y2` (flattened) and
`lap - a*y2 + f_ext` (flattened), where `y1`, `y2` are the two halves
of the input. -/
theorem odefun_pack_spec (Nx Ny : ℕ) (u : List ℚ) (t B a c : ℚ)
    (x : Fin Nx → ℚ) (y : Fin Ny → ℚ) (dx dy : ℚ) (hu : u.length = 2 * (Nx * Ny)) :
    odefun Nx Ny u t B a c x y dx dy = some (pack2 Nx Ny
      (fun i j => nth u (Nx * Ny + (i.val * Ny + j.val)))
      (fun i j =>
        lapTerm Nx Ny c dx dy (fun i j => nth u (i.val * Ny + j.val)) i j
          - a * nth u (Nx * Ny + (i.val * Ny + j.val))
          + external_force Nx Ny x y t B i j)) := by
  have htake : (u.take (Nx * Ny)).length = Nx * Ny := by
    rw [List.length_take]; omega
  have hdrop : (u.drop (Nx * Ny)).length = Nx * Ny := by
    rw [List.length_drop]; omega
  have e1 : (fun (i : Fin Nx) (j : Fin Ny) => nth (u.take (Nx * Ny)) (i.val * Ny + j.val))
      = fun i j => nth u (i.val * Ny + j.val) := by
    funext i j
    exact nth_take (index_lt Nx Ny i j)
  have e2 : (fun (i : Fin Nx) (j : Fin Ny) => nth (u.drop (Nx * Ny)) (i.val * Ny + j.val))
      = fun i j => nth u (Nx * Ny + (i.val * Ny + j.val)) := by
    funext i j
    exact nth_drop
  rw [odefun, unpack2, npReshape2, npReshape2, if_pos htake, if_pos hdrop]
  simp only [Option.some_bind, Option.map_some', e1, e2]

theorem lapTerm_boundary (Nx Ny : ℕ) (c dx dy : ℚ) (y1 : Fin Nx → Fin Ny → ℚ)
    (i : Fin Nx) (j : Fin Ny)
    (hb : i.val = 0 ∨ i.val = Nx - 1 ∨ j.val = 0 ∨ j.val = Ny - 1) :
    lapTerm Nx Ny c dx dy y1 i j = 0 := by
  have hi := i.isLt
  have hj := j.isLt
  exact dif_neg (by omega)

theorem Nx_eq : Nx = 41 := by
  have h : pyInt (lx / dx) = 40 := by norm_num [pyInt, lx, dx]
  rw [Nx, h]
  rfl

theorem Ny_eq : Ny = 41 := by
  have h : pyInt (ly / dy) = 40 := by norm_num [pyInt, ly, dy]
  rw [Ny, h]
  rfl

theorem x_val (i : Fin Nx) : x i = (i.val : ℚ) / 4 := by
  have hcast : ((Nx : ℚ) - 1) = 40 := by
    rw [Nx_eq]; norm_num
  rw [x, nth_npLinspace 0 lx Nx i.val i.isLt (by rw [Nx_eq]; omega), hcast, lx]
  ring

theorem y_val (j : Fin Ny) : y j = (j.val : ℚ) / 4 := by
  have hcast : ((Ny : ℚ) - 1) = 40 := by
    rw [Ny_eq]; norm_num
  rw [y, nth_npLinspace 0 ly Ny j.val j.isLt (by rw [Ny_eq]; omega), hcast, ly]
  ring

/-- On the notebook grid the forcing window `2.5 ≤ x ≤ 3.5`, `1.5 ≤ y ≤ 4.5`
never reaches a boundary cell. -/
theorem external_force_boundary (t B : ℚ) (i : Fin Nx) (j : Fin Ny)
    (hb : i.val = 0 ∨ i.val = Nx - 1 ∨ j.val = 0 ∨ j.val = Ny - 1) :
    external_force Nx Ny x y t B i j = 0 := by
  rw [external_force_spec]
  apply if_neg
  intro h
  obtain ⟨-, -, hx1, hx2, hy1, hy2⟩ := h
  rw [x_val] at hx1 hx2
  rw [y_val] at hy1 hy2
  rcases hb with h0 | h0 | h0 | h0
  · rw [h0] at hx1; norm_num at hx1
  · have h1 : i.val = 40 := by have hN := Nx_eq; omega
    rw [h1] at hx2; norm_num at hx2
  · rw [h0] at hy1; norm_num at hy1
  · have h1 : j.val = 40 := by have hN := Ny_eq; omega
    rw [h1] at hy2; norm_num at hy2

end Wave

namespace Wave

theorem nth_zipWith (f : ℚ → ℚ → ℚ) (u v : List ℚ) (k : ℕ)
    (hu : k < u.length) (hv : k < v.length) :
    nth (List.zipWith f u v) k = f (nth u k) (nth v k) := by
  have h : k < (List.zipWith f u v).length := by
    rw [List.length_zipWith]; omega
  rw [nth_eq_getElem h, nth_eq_getElem hu, nth_eq_getElem hv, List.getElem_zipWith]

theorem nth_replicate (n k : ℕ) : nth (List.replicate n (0:ℚ)) k = 0 := by
  by_cases h : k < n
  · rw [nth_eq_getElem (by simpa using h), List.getElem_replicate]
  · rw [nth, List.getD_eq_default]
    simp only [List.length_replicate]
    omega

/-- On the concrete notebook grid, entries of `odefun`'s result at boundary
cells: the `dy1/dt` half returns the boundary velocity, the `dy2/dt` half
returns `-a` times the boundary velocity (the Laplacian buffer is 0 there
and the forcing window misses the boundary). -/
theorem odefun_boundary (u : List ℚ) (t B a c dx0 dy0 : ℚ)
    (hu : u.length = 2 * (Nx * Ny)) :
    ∃ d, odefun Nx Ny u t B a c x y dx0 dy0 = some d ∧ d.length = 2 * (Nx * Ny) ∧
      ∀ (i : Fin Nx) (j : Fin Ny), isBoundary i j →
        nth d (i.val * Ny + j.val) = nth u (Nx * Ny + (i.val * Ny + j.val)) ∧
        nth d (Nx * Ny + (i.val * Ny + j.val))
          = -(a * nth u (Nx * Ny + (i.val * Ny + j.val))) := by
  refine ⟨_, odefun_pack_spec Nx Ny u t B a c x y dx0 dy0 hu, length_pack2 _ _ _ _, ?_⟩
  intro i j hb
  have hb' : i.val = 0 ∨ i.val = Nx - 1 ∨ j.val = 0 ∨ j.val = Ny - 1 := hb
  constructor
  · rw [nth_pack2_left]
  · rw [nth_pack2_right, lapTerm_boundary _ _ _ _ _ _ _ _ hb',
      external_force_boundary t B i j hb']
    ring

theorem length_uCorner : uCorner.length = 2 * (Nx * Ny) := by
  rw [uCorner, List.length_append, List.length_replicate, List.length_cons,
    List.length_replicate, Nx_eq, Ny_eq]

theorem nth_uCorner_corner : nth uCorner (Nx * Ny + (0 * Ny + 0)) = 1 := by
  have h : Nx * Ny + (0 * Ny + 0) = Nx * Ny := by simp
  rw [h, uCorner, nth, List.getD_append_right _ _ _ _ (by simp),
    List.length_replicate, Nat.sub_self]
  rfl

end Wave

/-- C1: the claim that the `dy2/dt` half of `odefun`'s output vanishes at
every boundary cell for EVERY state is false: at the state `uCorner`, whose
velocity component is 1 at the boundary corner `(0,0)`, with the notebook's
constants and grid, the returned `dy2/dt` entry at that corner is
`-a * 1 = -1/10 ≠ 0` - the damping term IS applied at boundary cells. -/
theorem C1_counterexample :
    nth ((Wave.odefun Wave.Nx Wave.Ny Wave.uCorner 0 Wave.B Wave.a Wave.c
        Wave.x Wave.y Wave.dx Wave.dy).getD [])
      (Wave.Nx * Wave.Ny + (0 * Wave.Ny + 0)) = -(1/10)
    ∧ (-(1/10) : ℚ) ≠ 0 := by
  constructor
  · obtain ⟨d, hd, hlen, hbd⟩ :=
      Wave.odefun_boundary Wave.uCorner 0 Wave.B Wave.a Wave.c Wave.dx Wave.dy
        Wave.length_uCorner
    rw [hd, Option.getD_some]
    have h0x : (0:ℕ) < Wave.Nx := by rw [Wave.Nx_eq]; omega
    have h0y : (0:ℕ) < Wave.Ny := by rw [Wave.Ny_eq]; omega
    have := (hbd ⟨0, h0x⟩ ⟨0, h0y⟩ (Or.inl rfl)).2
    rw [this, Wave.nth_uCorner_corner]
    norm_num [Wave.a]
  · norm_num

/-- C1 (amended): for every time, parameters and packed state of length
`2*Nx*Ny`, the `dy2/dt` half of the wave `odefun` output at a boundary cell
equals `-a` times the velocity stored there (the zero-initialized Laplacian
buffer contributes 0 and the forcing window of the notebook grid excludes
the boundary); it is 0 only when that boundary velocity is 0. -/
theorem C1_wave_boundary_dy2dt (t B a c dx0 dy0 : ℚ) (u : List ℚ)
    (hu : u.length = 2 * (Wave.Nx * Wave.Ny)) :
    ∃ d, Wave.odefun Wave.Nx Wave.Ny u t B a c Wave.x Wave.y dx0 dy0 = some d ∧
      ∀ (i : Fin Wave.Nx) (j : Fin Wave.Ny), Wave.isBoundary i j →
        nth d (Wave.Nx * Wave.Ny + (i.val * Wave.Ny + j.val))
          = -(a * nth u (Wave.Nx * Wave.Ny + (i.val * Wave.Ny + j.val))) := by
  obtain ⟨d, hd, -, hbd⟩ := Wave.odefun_boundary u t B a c dx0 dy0 hu
  exact ⟨d, hd, fun i j hb => (hbd i j hb).2⟩

/-- Witness for C1 (amended) at the notebook's initial state `u_start`. -/
theorem C1_wave_boundary_dy2dt_witness :
    Wave.u_start.length = 2 * (Wave.Nx * Wave.Ny) ∧
    ∃ d, Wave.odefun Wave.Nx Wave.Ny Wave.u_start 0 Wave.B Wave.a Wave.c
        Wave.x Wave.y Wave.dx Wave.dy = some d ∧
      ∀ (i : Fin Wave.Nx) (j : Fin Wave.Ny), Wave.isBoundary i j →
        nth d (Wave.Nx * Wave.Ny + (i.val * Wave.Ny + j.val))
          = -(Wave.a * nth Wave.u_start (Wave.Nx * Wave.Ny + (i.val * Wave.Ny + j.val))) :=
  ⟨by simp [Wave.u_start],
   C1_wave_boundary_dy2dt 0 Wave.B Wave.a Wave.c Wave.dx Wave.dy Wave.u_start
     (by simp [Wave.u_start])⟩

/-- C4: packing two `Nx × Ny` fields (row-major flatten + concatenate, as at
the tail of the wave `odefun`) and unpacking the result (take/drop `Nx*Ny`
entries + reshape, as at its head) recovers the fields exactly, for every
grid shape and every pair of fields. -/
theorem C4_pack_unpack_roundtrip (Nx Ny : ℕ) (v1 v2 : Fin Nx → Fin Ny → ℚ) :
    Wave.unpack2 Nx Ny (Wave.pack2 Nx Ny v1 v2) = some (v1, v2) :=
  Wave.unpack2_pack2 Nx Ny v1 v2

/-- C5: on the notebook grid, a packed state that is 0 on every boundary cell
of both the displacement and the velocity half has a time derivative that is
0 on every boundary cell of both halves; consequently every Euler-type update
`u + h * du` keeps the boundary exactly 0, so the all-zero initial state
keeps zero boundary for all time. -/
theorem C5_zero_boundary_invariant (t B a c dx0 dy0 : ℚ) (u : List ℚ)
    (hu : u.length = 2 * (Wave.Nx * Wave.Ny)) (hz : Wave.zeroBoundary Wave.Nx Wave.Ny u) :
    ∃ d, Wave.odefun Wave.Nx Wave.Ny u t B a c Wave.x Wave.y dx0 dy0 = some d ∧
      Wave.zeroBoundary Wave.Nx Wave.Ny d ∧
      ∀ h : ℚ, Wave.zeroBoundary Wave.Nx Wave.Ny
        (List.zipWith (fun p q => p + h * q) u d) := by
  obtain ⟨d, hd, hlen, hbd⟩ := Wave.odefun_boundary u t B a c dx0 dy0 hu
  have hdz : Wave.zeroBoundary Wave.Nx Wave.Ny d := by
    intro i j hb
    obtain ⟨h1, h2⟩ := hbd i j hb
    obtain ⟨-, hv⟩ := hz i j hb
    constructor
    · rw [h1, hv]
    · rw [h2, hv]
      ring
  refine ⟨d, hd, hdz, ?_⟩
  intro h i j hb
  have hk1 : i.val * Wave.Ny + j.val < 2 * (Wave.Nx * Wave.Ny) := by
    have := index_lt Wave.Nx Wave.Ny i j
    omega
  have hk2 : Wave.Nx * Wave.Ny + (i.val * Wave.Ny + j.val) < 2 * (Wave.Nx * Wave.Ny) := by
    have := index_lt Wave.Nx Wave.Ny i j
    omega
  constructor
  · rw [Wave.nth_zipWith _ _ _ _ (by omega) (by omega), (hz i j hb).1, (hdz i j hb).1]
    ring
  · rw [Wave.nth_zipWith _ _ _ _ (by omega) (by omega), (hz i j hb).2, (hdz i j hb).2]
    ring

/-- Witness for C5 at the notebook's all-zero initial state `u_start`. -/
theorem C5_zero_boundary_invariant_witness :
    Wave.u_start.length = 2 * (Wave.Nx * Wave.Ny) ∧
    Wave.zeroBoundary Wave.Nx Wave.Ny Wave.u_start ∧
    ∃ d, Wave.odefun Wave.Nx Wave.Ny Wave.u_start 0 Wave.B Wave.a Wave.c
        Wave.x Wave.y Wave.dx Wave.dy = some d ∧
      Wave.zeroBoundary Wave.Nx Wave.Ny d ∧
      ∀ h : ℚ, Wave.zeroBoundary Wave.Nx Wave.Ny
        (List.zipWith (fun p q => p + h * q) Wave.u_start d) :=
  ⟨by simp [Wave.u_start],
   fun i j _ => ⟨Wave.nth_replicate _ _, Wave.nth_replicate _ _⟩,
   C5_zero_boundary_invariant 0 Wave.B Wave.a Wave.c Wave.dx Wave.dy Wave.u_start
     (by simp [Wave.u_start])
     (fun i j _ => ⟨Wave.nth_replicate _ _, Wave.nth_replicate _ _⟩)⟩

/-- C2: `external_force` returns exactly `B` at a grid point iff
`2.5 ≤ x[i] ≤ 3.5`, `1.5 ≤ y[j] ≤ 4.5` (inclusive bounds) and `1 < t < 4`
(strict bounds), and exactly 0 otherwise; in particular `t = 1` and `t = 4`
give an all-zero array, and `x[i] = 2.5` or `x[i] = 3.5` still gives `B`
when the remaining conditions hold. -/
theorem C2_external_force_window (Nx Ny : ℕ) (x : Fin Nx → ℚ) (y : Fin Ny → ℚ)
    (t B : ℚ) (i : Fin Nx) (j : Fin Ny) :
    (Wave.external_force Nx Ny x y t B i j =
      if (5/2 : ℚ) ≤ x i ∧ x i ≤ 7/2 ∧ (3/2 : ℚ) ≤ y j ∧ y j ≤ 9/2 ∧ 1 < t ∧ t < 4
      then B else 0)
    ∧ Wave.external_force Nx Ny x y 1 B i j = 0
    ∧ Wave.external_force Nx Ny x y 4 B i j = 0
    ∧ ((x i = 5/2 ∨ x i = 7/2) → (3/2 : ℚ) ≤ y j → y j ≤ 9/2 → 1 < t → t < 4 →
        Wave.external_force Nx Ny x y t B i j = B) := by
  refine ⟨?_, ?_, ?_, ?_⟩
  · rw [Wave.external_force_spec]
    by_cases h : (5/2 : ℚ) ≤ x i ∧ x i ≤ 7/2 ∧ (3/2 : ℚ) ≤ y j ∧ y j ≤ 9/2 ∧ 1 < t ∧ t < 4
    · rw [if_pos h, if_pos (by tauto)]
    · rw [if_neg h, if_neg (by tauto)]
  · rw [Wave.external_force_spec]
    apply if_neg
    rintro ⟨h1, -⟩
    exact absurd h1 (lt_irrefl 1)
  · rw [Wave.external_force_spec]
    apply if_neg
    rintro ⟨-, h2, -⟩
    exact absurd h2 (by norm_num)
  · intro hx hy1 hy2 ht1 ht2
    rw [Wave.external_force_spec]
    apply if_pos
    rcases hx with hx | hx <;>
      exact ⟨ht1, ht2, by norm_num [hx], by norm_num [hx], hy1, hy2⟩

section MoreBaseLemmas

theorem nth_map (f : ℚ → ℚ) (l : List ℚ) (i : ℕ) (h : i < l.length) :
    nth (l.map f) i = f (nth l i) := by
  rw [nth_eq_getElem (by simpa using h), List.getElem_map, nth_eq_getElem h]

theorem length_npDiff (v : List ℚ) : (npDiff v).length = v.length - 1 := by
  rw [npDiff, List.length_zipWith, List.length_tail]
  omega

theorem nth_npDiff (v : List ℚ) (i : ℕ) (h : i + 1 < v.length) :
    nth (npDiff v) i = nth v (i + 1) - nth v i := by
  have hlen : i < (npDiff v).length := by
    rw [length_npDiff]; omega
  rw [nth_eq_getElem hlen]
  simp only [npDiff, List.getElem_zipWith, List.getElem_tail]
  rw [nth_eq_getElem (by omega : i + 1 < v.length), nth_eq_getElem (by omega : i < v.length)]

end MoreBaseLemmas

namespace Heat

theorem nth_dq_left (p : Params) (hq : p.q.length = p.Nx) (i : ℕ) (hi : i < p.Nx) :
    nth (0 :: (npDiff p.q).map (fun z => -1 * z)) i =
      if 1 ≤ i then -(nth p.q i - nth p.q (i - 1)) else 0 := by
  cases i with
  | zero =>
    rw [if_neg (by omega)]
    rfl
  | succ k =>
    rw [if_pos (by omega)]
    have h1 : nth (0 :: (npDiff p.q).map (fun z => -1 * z)) (k + 1)
        = nth ((npDiff p.q).map (fun z => -1 * z)) k := by
      rw [nth, nth, List.getD_cons_succ]
    have hk : k < (npDiff p.q).length := by
      rw [length_npDiff, hq]; omega
    rw [h1, nth_map _ _ _ hk, nth_npDiff p.q k (by rw [hq]; omega)]
    simp only [Nat.add_sub_cancel]
    ring

theorem nth_dq_right (p : Params) (hq : p.q.length = p.Nx) (i : ℕ) (hi : i < p.Nx) :
    nth (npDiff p.q ++ [0]) i =
      if i + 1 < p.Nx then nth p.q (i + 1) - nth p.q i else 0 := by
  by_cases hib : i + 1 < p.Nx
  · rw [if_pos hib, nth, List.getD_append _ _ _ _ (by rw [length_npDiff, hq]; omega)]
    rw [← nth, nth_npDiff p.q i (by rw [hq]; omega)]
  · rw [if_neg hib, nth, List.getD_append_right _ _ _ _ (by rw [length_npDiff, hq]; omega)]
    have h0 : i - (npDiff p.q).length = 0 := by
      rw [length_npDiff, hq]; omega
    rw [h0]
    rfl

/-- Entrywise description of the heat `odefun` on a state of the expected
length `Nx`: the returned vector has length `Nx` and entry `i` equal to
`-(1/c) * (dq_i / Δx_i - a*y_i)` with the asymmetric net-flux combination
`dq_i` and the forward grid difference `Δx_i`. -/
theorem odefun_entry_spec (t : ℚ) (y : List ℚ) (p : Params) (hWF : WF p)
    (hy : y.length = p.Nx) :
    ∃ d, odefun t y p = some d ∧ d.length = p.Nx ∧
      ∀ i, i < p.Nx →
        nth d i = -(p.c)⁻¹ *
          (((if 1 ≤ i then -(nth p.q i - nth p.q (i - 1)) else 0)
            + (if i + 1 < p.Nx then nth p.q (i + 1) - nth p.q i else 0))
            / (nth p.x (i + 1) - nth p.x i) - p.a * nth y i) := by
  obtain ⟨hq, hx, hNx⟩ := hWF
  have hdql : ((0 : ℚ) :: (npDiff p.q).map (fun z => -1 * z)).length = p.Nx := by
    rw [List.length_cons, List.length_map, length_npDiff, hq]
    omega
  have hdqr : (npDiff p.q ++ [(0 : ℚ)]).length = p.Nx := by
    rw [List.length_append, length_npDiff, hq, List.length_singleton]
    omega
  have hdq : (List.zipWith (fun u v => u + v)
      ((0 : ℚ) :: (npDiff p.q).map (fun z => -1 * z)) (npDiff p.q ++ [0])).length = p.Nx := by
    rw [List.length_zipWith, hdql, hdqr]
    omega
  have hdx : (npDiff p.x).length = p.Nx := by
    rw [length_npDiff, hx]
    omega
  have hflux : (List.zipWith (fun u v => u / v)
      (List.zipWith (fun u v => u + v)
        ((0 : ℚ) :: (npDiff p.q).map (fun z => -1 * z)) (npDiff p.q ++ [0]))
      (npDiff p.x)).length = p.Nx := by
    rw [List.length_zipWith, hdq, hdx]
    omega
  have hs : (y.map (fun z => z * p.a)).length = p.Nx := by
    rw [List.length_map, hy]
  have hstep : odefun t y p = some (List.map (fun z => -(p.c)⁻¹ * z)
      (List.zipWith (fun u v => u - v)
        (List.zipWith (fun u v => u / v)
          (List.zipWith (fun u v => u + v)
            ((0 : ℚ) :: (npDiff p.q).map (fun z => -1 * z)) (npDiff p.q ++ [0]))
          (npDiff p.x))
        (y.map (fun z => z * p.a)))) := by
    simp only [odefun, npSub, hflux, hs, if_pos, Option.map_some']
  refine ⟨_, hstep, ?_, ?_⟩
  · rw [List.length_map, List.length_zipWith, hflux, hs]
    omega
  · intro i hi
    rw [nth_map _ _ _ (by rw [List.length_zipWith, hflux, hs]; omega)]
    rw [Wave.nth_zipWith _ _ _ _ (by omega) (by omega)]
    rw [Wave.nth_zipWith _ _ _ _ (by omega) (by omega)]
    rw [Wave.nth_zipWith _ _ _ _ (by omega) (by omega)]
    rw [nth_dq_left p hq i hi, nth_dq_right p hq i hi]
    rw [nth_npDiff p.x i (by rw [hx]; omega)]
    rw [nth_map _ _ _ (by rw [hy]; omega)]
    ring
end Heat

namespace Heat

/-- The notebook's concrete `params` satisfy the shape invariant. -/
theorem params_WF : WF params := by
  refine ⟨?_, ?_, ?_⟩
  · simp [params]
  · simp [params, npLinspace]
  · decide

end Heat

/-- C3: for every time and every state vector of length `Nx`, the heat
`odefun` returns `-(1/C) * (dq/Δx - a*y)` elementwise, where
`dq[i] = -(q[i]-q[i-1])` for `i ≥ 1` (else no left contribution) plus
`q[i+1]-q[i]` for `i+1 < Nx` (else no right contribution) and `Δx` is the
forward difference of the grid coordinates - in particular index 0 gets no
left and index `Nx-1` no right flux contribution (zero-flux boundaries). -/
theorem C3_heat_rhs_formula (t : ℚ) (y : List ℚ) (p : Heat.Params)
    (hWF : Heat.WF p) (hy : y.length = p.Nx) :
    ∃ d, Heat.odefun t y p = some d ∧ d.length = p.Nx ∧
      ∀ i, i < p.Nx →
        nth d i = -(p.c)⁻¹ *
          (((if 1 ≤ i then -(nth p.q i - nth p.q (i - 1)) else 0)
            + (if i + 1 < p.Nx then nth p.q (i + 1) - nth p.q i else 0))
            / (nth p.x (i + 1) - nth p.x i) - p.a * nth y i) :=
  Heat.odefun_entry_spec t y p hWF hy

/-- Witness for C3 at the notebook's `params` and initial profile `T_init`. -/
theorem C3_heat_rhs_formula_witness :
    Heat.WF Heat.params ∧ Heat.T_init.length = Heat.params.Nx ∧
    ∃ d, Heat.odefun 0 Heat.T_init Heat.params = some d ∧ d.length = Heat.params.Nx ∧
      ∀ i, i < Heat.params.Nx →
        nth d i = -(Heat.params.c)⁻¹ *
          (((if 1 ≤ i then -(nth Heat.params.q i - nth Heat.params.q (i - 1)) else 0)
            + (if i + 1 < Heat.params.Nx
               then nth Heat.params.q (i + 1) - nth Heat.params.q i else 0))
            / (nth Heat.params.x (i + 1) - nth Heat.params.x i)
            - Heat.params.a * nth Heat.T_init i) :=
  ⟨Heat.params_WF, by decide,
   C3_heat_rhs_formula 0 Heat.T_init Heat.params Heat.params_WF (by decide)⟩

section SumLemmas

theorem sum_eq_finset_sum (l : List ℚ) :
    l.sum = ∑ i ∈ Finset.range l.length, nth l i := by
  induction l with
  | nil => simp
  | cons a t ih =>
    rw [List.sum_cons, List.length_cons, Finset.sum_range_succ', ih]
    have h0 : nth (a :: t) 0 = a := rfl
    have hs : ∀ i, nth (a :: t) (i + 1) = nth t i := fun i => rfl
    simp only [h0, hs]
    ring

end SumLemmas

/-- C6: with zero source coefficient (`a = 0`) and a uniformly spaced grid,
the heat `odefun` output sums to exactly 0 over all cells for every time and
state - so each Euler/RK update by a linear combination of such derivatives
leaves the total of `T` unchanged (conservation with zero-flux boundaries). -/
theorem C6_heat_conservation (t : ℚ) (y : List ℚ) (p : Heat.Params) (h : ℚ)
    (hWF : Heat.WF p) (ha : p.a = 0) (hy : y.length = p.Nx)
    (hu : ∀ i, i + 1 < p.x.length → nth p.x (i + 1) - nth p.x i = h) :
    ∃ d, Heat.odefun t y p = some d ∧ d.sum = 0 := by
  obtain ⟨hq, hx, hNx⟩ := hWF
  obtain ⟨d, hd, hdlen, hdent⟩ := Heat.odefun_entry_spec t y p ⟨hq, hx, hNx⟩ hy
  refine ⟨d, hd, ?_⟩
  rw [sum_eq_finset_sum, hdlen]
  have key : ∀ i ∈ Finset.range p.Nx, nth d i =
      (-(p.c)⁻¹ * h⁻¹) *
        ((if 1 ≤ i then -(nth p.q i - nth p.q (i - 1)) else 0)
          + (if i + 1 < p.Nx then nth p.q (i + 1) - nth p.q i else 0)) := by
    intro i hi
    have hi' : i < p.Nx := Finset.mem_range.mp hi
    rw [hdent i hi', ha, hu i (by omega)]
    ring
  rw [Finset.sum_congr rfl key, ← Finset.mul_sum]
  obtain ⟨m, hm⟩ : ∃ m, p.Nx = m + 1 := ⟨p.Nx - 1, by omega⟩
  have h1 : ∑ i ∈ Finset.range p.Nx,
      (if 1 ≤ i then -(nth p.q i - nth p.q (i - 1)) else 0)
      = nth p.q 0 - nth p.q m := by
    rw [hm, Finset.sum_range_succ']
    have he : ∀ i, (if 1 ≤ i + 1 then -(nth p.q (i + 1) - nth p.q (i + 1 - 1)) else 0)
        = nth p.q i - nth p.q (i + 1) := by
      intro i
      rw [if_pos (by omega)]
      simp only [Nat.add_sub_cancel]
      ring
    simp only [he]
    rw [Finset.sum_range_sub' (fun i => nth p.q i)]
    simp
  have h2 : ∑ i ∈ Finset.range p.Nx,
      (if i + 1 < p.Nx then nth p.q (i + 1) - nth p.q i else 0)
      = nth p.q m - nth p.q 0 := by
    rw [hm, Finset.sum_range_succ, if_neg (by omega)]
    have he : ∀ i ∈ Finset.range m,
        (if i + 1 < m + 1 then nth p.q (i + 1) - nth p.q i else 0)
        = nth p.q (i + 1) - nth p.q i := by
      intro i hi
      rw [if_pos (by have := Finset.mem_range.mp hi; omega)]
    rw [Finset.sum_congr rfl he, Finset.sum_range_sub (fun i => nth p.q i)]
    ring
  rw [Finset.sum_add_distrib, h1, h2]
  ring

/-- Witness for C6 at a concrete zero-source parameter set with the uniform
grid `[0, 1, 2]`. -/
theorem C6_heat_conservation_witness :
    Heat.WF { c := 1, q := [0, 1], x := [0, 1, 2], a := 0, Nx := 2 } ∧
    ({ c := 1, q := [0, 1], x := [0, 1, 2], a := 0, Nx := 2 } : Heat.Params).a = 0 ∧
    ([(1:ℚ), 2].length = 2) ∧
    (∀ i, i + 1 < ([(0:ℚ), 1, 2] : List ℚ).length →
      nth [0, 1, 2] (i + 1) - nth [0, 1, 2] i = 1) ∧
    ∃ d, Heat.odefun 0 [1, 2] { c := 1, q := [0, 1], x := [0, 1, 2], a := 0, Nx := 2 }
        = some d ∧ d.sum = 0 := by
  have hu : ∀ i, i + 1 < ([(0:ℚ), 1, 2] : List ℚ).length →
      nth [0, 1, 2] (i + 1) - nth [0, 1, 2] i = 1 := by
    intro i hi
    simp only [List.length_cons, List.length_nil] at hi
    have h2 : i < 2 := by omega
    interval_cases i <;> norm_num [nth]
  exact ⟨⟨by decide, by decide, by decide⟩, rfl, by decide, hu,
    C6_heat_conservation 0 [1, 2] _ 1 ⟨by decide, by decide, by decide⟩ rfl (by decide) hu⟩

/-- C10: the heat right-hand side is affine and time-independent in the
state: for any two times and any two states of length `Nx`,
`odefun(t,y) - odefun(t',y') = (a/C) * (y - y')` elementwise - the
flux-divergence contribution is a fixed vector determined by `q` and the
grid alone. -/
theorem C10_heat_affine (t t' : ℚ) (y y' : List ℚ) (p : Heat.Params)
    (hWF : Heat.WF p) (hy : y.length = p.Nx) (hy' : y'.length = p.Nx) :
    ∃ d d', Heat.odefun t y p = some d ∧ Heat.odefun t' y' p = some d' ∧
      ∀ i, i < p.Nx → nth d i - nth d' i = p.a / p.c * (nth y i - nth y' i) := by
  obtain ⟨d, hd, -, hde⟩ := Heat.odefun_entry_spec t y p hWF hy
  obtain ⟨d', hd', -, hde'⟩ := Heat.odefun_entry_spec t' y' p hWF hy'
  refine ⟨d, d', hd, hd', ?_⟩
  intro i hi
  rw [hde i hi, hde' i hi]
  ring

/-- Witness for C10 at the notebook's `params`, comparing times 0 and 1 on
`T_init` and the all-ones profile. -/
theorem C10_heat_affine_witness :
    Heat.WF Heat.params ∧ Heat.T_init.length = Heat.params.Nx ∧
    (List.replicate 10 (1:ℚ)).length = Heat.params.Nx ∧
    ∃ d d', Heat.odefun 0 Heat.T_init Heat.params = some d ∧
      Heat.odefun 1 (List.replicate 10 (1:ℚ)) Heat.params = some d' ∧
      ∀ i, i < Heat.params.Nx →
        nth d i - nth d' i
          = Heat.params.a / Heat.params.c
            * (nth Heat.T_init i - nth (List.replicate 10 (1:ℚ)) i) :=
  ⟨Heat.params_WF, by decide, by decide,
   C10_heat_affine 0 1 Heat.T_init (List.replicate 10 (1:ℚ)) Heat.params
     Heat.params_WF (by decide) (by decide)⟩

namespace Wave

/-- The wave `odefun` succeeds exactly on inputs of the packed length
`2*Nx*Ny`; any other length makes one of the two `reshape` calls fail. -/
theorem odefun_length_ok (Nx Ny : ℕ) (u : List ℚ) (t B a c : ℚ)
    (x : Fin Nx → ℚ) (y : Fin Ny → ℚ) (dx dy : ℚ) :
    (odefun Nx Ny u t B a c x y dx dy).isSome = true ↔ u.length = 2 * (Nx * Ny) := by
  rw [odefun, unpack2, npReshape2, npReshape2]
  by_cases h1 : (u.take (Nx * Ny)).length = Nx * Ny
  · by_cases h2 : (u.drop (Nx * Ny)).length = Nx * Ny
    · rw [if_pos h1, if_pos h2]
      simp only [Option.some_bind, Option.map_some', Option.isSome_some, true_iff]
      rw [List.length_take] at h1
      rw [List.length_drop] at h2
      omega
    · rw [if_pos h1, if_neg h2]
      simp only [Option.some_bind, Option.map_none', Option.isSome_none,
        Bool.false_eq_true, false_iff]
      rw [List.length_take] at h1
      rw [List.length_drop] at h2
      omega
  · rw [if_neg h1]
    simp only [Option.none_bind, Option.map_none', Option.isSome_none,
      Bool.false_eq_true, false_iff]
    rw [List.length_take] at h1
    omega

end Wave

namespace Heat

/-- The heat `odefun` succeeds exactly when the state broadcasts against the
length-`Nx` flux term: length `Nx`, length 1, or (degenerately) `Nx = 1`. -/
theorem odefun_broadcast_ok (t : ℚ) (y : List ℚ) (p : Params) (hWF : WF p) :
    (odefun t y p).isSome = true ↔
      (y.length = p.Nx ∨ y.length = 1 ∨ p.Nx = 1) := by
  obtain ⟨hq, hx, hNx⟩ := hWF
  have hflux : (List.zipWith (fun u v => u / v)
      (List.zipWith (fun u v => u + v)
        ((0 : ℚ) :: (npDiff p.q).map (fun z => -1 * z)) (npDiff p.q ++ [0]))
      (npDiff p.x)).length = p.Nx := by
    rw [List.length_zipWith, List.length_zipWith, List.length_cons, List.length_map,
      List.length_append, List.length_singleton, length_npDiff, length_npDiff]
    omega
  have hs : (y.map (fun z => z * p.a)).length = y.length := List.length_map _ _
  rw [odefun, npSub]
  simp only [hflux, hs, Option.isSome_map']
  by_cases h1 : p.Nx = y.length
  · rw [if_pos h1]
    simp only [Option.isSome_some, true_iff]
    omega
  · rw [if_neg h1]
    by_cases h2 : y.length = 1
    · rw [if_pos h2]
      simp only [Option.isSome_some, true_iff]
      omega
    · rw [if_neg h2]
      by_cases h3 : p.Nx = 1
      · rw [if_pos h3]
        simp only [Option.isSome_some, true_iff]
        omega
      · rw [if_neg h3]
        simp only [Option.isSome_none, Bool.false_eq_true, false_iff]
        omega

end Heat

/-- C7 (amended): there is no `ShapeMismatchError` in the code; shape failures
are NumPy errors (`none` in this model) and propagate unchanged.  The wave
assembler fails exactly when the state length differs from `2*Nx*Ny` (a
`reshape` `ValueError`).  The heat assembler has no shape guard of its own:
a state of length `Nx` or of length 1 (or any state when `Nx = 1`)
broadcasts and succeeds silently, every other length fails inside the
broadcasting subtraction. -/
theorem C7_shape_failure_semantics :
    (∀ (Nx Ny : ℕ) (u : List ℚ) (t B a c : ℚ)
        (x : Fin Nx → ℚ) (y : Fin Ny → ℚ) (dx dy : ℚ),
      (Wave.odefun Nx Ny u t B a c x y dx dy).isSome = true ↔
        u.length = 2 * (Nx * Ny))
    ∧ (∀ (t : ℚ) (y : List ℚ) (p : Heat.Params), Heat.WF p →
        ((Heat.odefun t y p).isSome = true ↔
          (y.length = p.Nx ∨ y.length = 1 ∨ p.Nx = 1))) :=
  ⟨Wave.odefun_length_ok, Heat.odefun_broadcast_ok⟩

/-- Witness for C7 (amended) at the notebook's heat `params`. -/
theorem C7_shape_failure_semantics_witness :
    Heat.WF Heat.params ∧
    ((Heat.odefun 0 [1] Heat.params).isSome = true ↔
      (([(1:ℚ)]).length = Heat.params.Nx ∨ ([(1:ℚ)]).length = 1 ∨ Heat.params.Nx = 1)) :=
  ⟨Heat.params_WF, C7_shape_failure_semantics.2 0 [1] Heat.params Heat.params_WF⟩

/-- C7: the claim that EVERY mismatched state length raises a shape error is
false for the heat assembler: the length-1 state `[1]` (≠ the expected
`Nx = 10`) broadcasts and `odefun` returns a value instead of failing. -/
theorem C7_counterexample :
    (Heat.odefun 0 [1] Heat.params).isSome = true ∧
    ([(1:ℚ)]).length ≠ Heat.params.Nx := by
  constructor
  · rw [Heat.odefun_broadcast_ok 0 [1] Heat.params Heat.params_WF]
    right
    left
    rfl
  · decide

/-- C8: the claim that a non-success integrator status makes the driver raise
`IntegrationError` is false: on a result with `status = -1`,
`success = false` and an empty trajectory, the driver returns the result
unchanged as a success and raises nothing. -/
theorem C8_counterexample :
    driver { status := -1, message := "integration failure", success := false, y := [] }
      = Except.ok { status := -1, message := "integration failure", success := false, y := [] }
    ∧ ({ status := -1, message := "integration failure", success := false, y := [] }
        : IvpResult).success = false :=
  ⟨rfl, rfl⟩

/-- C8 (amended): the driver performs no error handling at all: for every
integrator result - whatever its status, message or success flag - it exposes
the (possibly empty or partial) result unchanged, never raises
`IntegrationError` and never retries. -/
theorem C8_driver_no_error_handling (r : IvpResult) : driver r = Except.ok r := rfl

/-- C9: the claim that every input with domain length ≤ 0 fails with a
configuration error at construction time is false: at length 0 with step 1/4
the construction silently succeeds and returns the one-point grid `[0]`. -/
theorem C9_counterexample : buildGrid 0 (1/4) = Except.ok [0] := by
  have h4 : ¬ ((1/4 : ℚ) = 0) := by norm_num
  have h0 : pyInt ((0 : ℚ) / (1/4)) = 0 := by norm_num [pyInt]
  simp only [buildGrid, if_neg h4, h0]
  norm_num [npLinspace]

/-- C9 (amended): the grid cell performs no validation and no
`ConfigurationError` exists: `step = 0` fails with Python's
`ZeroDivisionError`; a negative computed sample count fails with NumPy's
`ValueError`; domain length 0 (or small negative lengths) silently yield a
grid instead of failing.  For `0 < step ≤ length`, construction succeeds
with an ordered, evenly spaced grid of `⌊length/step⌋ + 1` points covering
`[0, length]` with both endpoints included.  (For `0 < length < step` the
grid degenerates to the single point `[0]` and does not reach `length`.) -/
theorem C9_grid_builder :
    (∀ l : ℚ, buildGrid l 0 = Except.error GridError.zeroDivisionError)
    ∧ ∀ (l step : ℚ), 0 < step → step ≤ l →
        ∃ g, buildGrid l step = Except.ok g ∧
          g.length = (⌊l / step⌋ + 1).toNat ∧ 1 < g.length ∧
          nth g 0 = 0 ∧ nth g (g.length - 1) = l ∧
          (∀ i, i + 1 < g.length →
            nth g (i + 1) - nth g i = l / ((g.length : ℚ) - 1)) ∧
          (∀ i, i + 1 < g.length → nth g i < nth g (i + 1)) := by
  constructor
  · intro l
    rw [buildGrid, if_pos rfl]
  · intro l step hstep hle
    have hl : 0 < l := lt_of_lt_of_le hstep hle
    have hqpos : (0 : ℚ) ≤ l / step := div_nonneg hl.le hstep.le
    have hq1 : (1 : ℚ) ≤ l / step := (one_le_div hstep).mpr hle
    have hfloor : 1 ≤ ⌊l / step⌋ := Int.le_floor.mpr (by exact_mod_cast hq1)
    have hpy : pyInt (l / step) = ⌊l / step⌋ := if_pos hqpos
    set n : ℕ := (⌊l / step⌋ + 1).toNat with hn
    have hn2 : 2 ≤ n := by omega
    have hne1 : n ≠ 1 := by omega
    have hcastpos : (1 : ℚ) ≤ (n : ℚ) - 1 := by
      have : (2 : ℚ) ≤ (n : ℚ) := by exact_mod_cast hn2
      linarith
    have hne0 : ((n : ℚ) - 1) ≠ 0 := by linarith
    have hglen : (npLinspace 0 l n).length = n := by
      rw [npLinspace, List.length_map, List.length_range]
    have hspace : ∀ i, i + 1 < n →
        nth (npLinspace 0 l n) (i + 1) - nth (npLinspace 0 l n) i
          = l / ((n : ℚ) - 1) := by
      intro i hi
      rw [nth_npLinspace 0 l n (i + 1) (by omega) hne1,
        nth_npLinspace 0 l n i (by omega) hne1]
      push_cast
      ring
    refine ⟨npLinspace 0 l n, ?_, by rw [hglen], by omega, ?_, ?_, ?_, ?_⟩
    · simp only [buildGrid, if_neg hstep.ne', hpy]
      rw [if_neg (by omega : ¬ (⌊l / step⌋ + 1 < 0)), ← hn]
    · rw [nth_npLinspace 0 l n 0 (by omega) hne1]
      norm_num
    · rw [hglen, nth_npLinspace 0 l n (n - 1) (by omega) hne1]
      have hc : ((n - 1 : ℕ) : ℚ) = (n : ℚ) - 1 := by
        push_cast [Nat.cast_sub (by omega : 1 ≤ n)]
        ring
      rw [hc]
      field_simp
    · intro i hi
      rw [hglen] at hi ⊢
      exact hspace i hi
    · intro i hi
      rw [hglen] at hi
      have h1 := hspace i hi
      have hpos : 0 < l / ((n : ℚ) - 1) := div_pos hl (by linarith)
      linarith [h1, hpos]

/-- Witness for C9 (amended) at length 1, step 1. -/
theorem C9_grid_builder_witness :
    (0 : ℚ) < 1 ∧ (1 : ℚ) ≤ 1 ∧
    ∃ g, buildGrid 1 1 = Except.ok g ∧
      g.length = (⌊(1 : ℚ) / 1⌋ + 1).toNat ∧ 1 < g.length ∧
      nth g 0 = 0 ∧ nth g (g.length - 1) = 1 ∧
      (∀ i, i + 1 < g.length →
        nth g (i + 1) - nth g i = 1 / ((g.length : ℚ) - 1)) ∧
      (∀ i, i + 1 < g.length → nth g i < nth g (i + 1)) :=
  ⟨zero_lt_one, le_refl 1, C9_grid_builder.2 1 1 zero_lt_one (le_refl 1)⟩
